import Mathlib

/-!
# Priority-driven calculator: tokenizer and reduction engine

Shallow embedding of `source/parser.c` (`parse`), `source/definitions.h`
(token constants, `removeUnaryOperator`, `removeBinaryOperator`) and
`C/src/evaluator.c` (`getHighestPriority`, `evaluate`), together with the
empty-string guard of `C/src/main.c`.

The linked list of `Token` nodes is a `List`; a node's `prev`/`next` pointers are
its neighbours in the list and `NULL` is the absence of a neighbour.  Memory that
`malloc` returns and the program never writes is the parameter `fresh`: `fresh n`
is the content of the `n`-th node at allocation time.  The C `double` and its
arithmetic are the parameter `Arith V`.  The input is a sequence of C `char`s, one
per `Char` of the string.
-/

namespace Calculator

/-! ## The program and the notions the statements use -/

/-- Arithmetic of the C `double` type as used by the program: conversion from `int`
and the five binary operations (`+`, `-`, `*`, `/`, `pow`). -/
structure Arith (V : Type) where
  ofInt : Int → V
  add : V → V → V
  sub : V → V → V
  mul : V → V → V
  div : V → V → V
  pow : V → V → V

/-- Exact integer arithmetic, an instance of `Arith` in which small examples are run.
It is not the arithmetic of `double`: nothing is rounded, the quotient is the integer
quotient (`7 / 2` is 3 where the program computes 3.5, `1 / 0` is 0 where the program
computes an infinity) and a negative exponent is read as 0.  On one operation it gives
what the program computes only when the operands and the exact result are integers of
magnitude at most `2^53`, the divisor is not zero and divides the dividend, and the
exponent is not negative; the examples run in it stay within that range.  What the
program computes beyond `2^53` is in `doubleArith`. -/
def intArith : Arith Int where
  ofInt := fun z => z
  add := fun a b => a + b
  sub := fun a b => a - b
  mul := fun a b => a * b
  div := fun a b => a / b
  pow := fun a b => a ^ b.toNat

/-- The number of low-order bits that `n` has beyond 53 significant ones (counted up
to `fuel`). -/
def dropBits : Nat → Nat → Nat
  | 0, _ => 0
  | fuel + 1, n => if n < 2 ^ 53 then 0 else dropBits fuel (n / 2) + 1

/-- Rounding of a natural number to 53 significant bits, to the nearest such number and,
half-way between two of them, to the one with the even significand: the rounding of
IEEE 754 binary64 in its default mode. -/
def roundNat (n : Nat) : Nat :=
  let e := dropBits 1024 n
  let q := n / 2 ^ e
  let r := n % 2 ^ e
  if 2 * r < 2 ^ e then q * 2 ^ e
  else if 2 ^ e < 2 * r then (q + 1) * 2 ^ e
  else if q % 2 = 0 then q * 2 ^ e else (q + 1) * 2 ^ e

/-- The `double` nearest to an integer, the sign apart from the magnitude; `none` when
the rounded magnitude reaches `2^1024` (written `(2^256)^4`), where the result is an
infinity. -/
def roundInt (z : Int) : Option Int :=
  if roundNat z.natAbs < (2 ^ 256) ^ 4 then
    some (if z < 0 then -(roundNat z.natAbs : Int) else (roundNat z.natAbs : Int))
  else none

/-- The arithmetic of `double` on integer values.  `some z` is the finite `double`
whose value is the integer `z`; `none` is any other value (not an integer, an infinity,
a NaN), which is not followed further: an operation with such an operand gives `none`.
Sum, difference and product are the exact result, rounded.  The quotient is followed
when the divisor is not zero and divides the dividend; `pow` of `math.h` is followed
when the exponent is not negative and the exact power has a magnitude of at most
`2^53`, where it is a `double` and the library returns it.  The sign of a zero is not
represented. -/
def doubleArith : Arith (Option Int) where
  ofInt := fun z => roundInt z
  add := fun a b =>
    match a, b with
    | some x, some y => roundInt (x + y)
    | _, _ => none
  sub := fun a b =>
    match a, b with
    | some x, some y => roundInt (x - y)
    | _, _ => none
  mul := fun a b =>
    match a, b with
    | some x, some y => roundInt (x * y)
    | _, _ => none
  div := fun a b =>
    match a, b with
    | some x, some y => if y ≠ 0 ∧ x % y = 0 then roundInt (x / y) else none
    | _, _ => none
  pow := fun a b =>
    match a, b with
    | some x, some y =>
      if 0 ≤ y ∧ (x ^ y.toNat).natAbs ≤ 2 ^ 53 then some (x ^ y.toNat) else none
    | _, _ => none

/-! ### `definitions.h` -/

def ADD_T : Nat := 1

def SUB_T : Nat := 2

def MUL_T : Nat := 3

def DIV_T : Nat := 4

def POW_T : Nat := 5

def NUM_T : Nat := 6

def SQRT_T : Nat := 7

def L_PAREN_T : Nat := 8

def R_PAREN_T : Nat := 9

def NUM_P : Nat := 0

def ADD_P : Nat := 3

def SUB_P : Nat := 3

def MUL_P : Nat := 4

def DIV_P : Nat := 4

def POW_P : Nat := 5

def SQRT_P : Nat := 5

def PAREN_P : Nat := 9

/-- A node of the token list: `double value; unsigned char type; unsigned int priority`.
The links `next`/`prev` are the position of the node in the list. -/
structure Token (V : Type) where
  value : V
  type : Nat
  priority : Nat
deriving DecidableEq, Repr

/-- Unlinking of one node (`removeUnaryOperator`): `none` when the node is the only
one of the list, where the C code dereferences the `NULL` `prev` pointer. -/
def removeUnaryOperator {V : Type} (tokens : List (Token V)) (i : Nat) :
    Option (List (Token V)) :=
  if i + 1 = tokens.length ∧ i = 0 then none else some (tokens.eraseIdx i)

/-- Unlinking of an operator node and of the node after it (`removeBinaryOperator`);
both branches of the C function leave the previous node linked to what followed the
removed pair. -/
def removeBinaryOperator {V : Type} (tokens : List (Token V)) (i : Nat) :
    List (Token V) :=
  tokens.take i ++ tokens.drop (i + 2)

/-! ### `parser.c` -/

/-- The macro `isNumber(x)`: `47 < x && x < 58`. -/
def isNumber (c : Char) : Bool := 47 < c.toNat && c.toNat < 58

/-- The macro `isLetter(x)`: `96 < x && x < 123`. -/
def isLetter (c : Char) : Bool := 96 < c.toNat && c.toNat < 123

/-- The C string held by a character buffer: the characters before the first NUL. -/
def cString (buf : List Char) : List Char := buf.takeWhile (fun c => c.toNat != 0)

/-- The macro `compare(x, y)`, that is `strcmp(x, y)` read as a truth value: non-zero,
hence true, exactly when the two strings differ. -/
def compare (x : List Char) (buf : List Char) : Bool := x != cString buf

/-- The inner loop over the following digits: `value = value * 10 + *expr - 48`.
Returns the value and the input left after the digit run. -/
def parseNumber {V : Type} (A : Arith V) (value : V) : List Char → V × List Char
  | [] => (value, [])
  | c :: cs =>
    if isNumber c then
      parseNumber A (A.sub (A.add (A.mul value (A.ofInt 10)) (A.ofInt c.toNat)) (A.ofInt 48)) cs
    else (value, c :: cs)

/-- The inner loop over the following letters: `letterBuffer[letterBufferIndex] = *expr;
letterBufferIndex ++`.  The buffer has nine cells; a write past them is `none`. -/
def parseLetters (buf : List Char) (idx : Nat) : List Char → Option (List Char × List Char)
  | [] => some (buf, [])
  | c :: cs =>
    if isLetter c then
      if idx < 9 then parseLetters (buf.set idx c) (idx + 1) cs else none
    else some (buf, c :: cs)

theorem parseNumber_length {V : Type} (A : Arith V) (value : V) (cs : List Char) :
    (parseNumber A value cs).2.length ≤ cs.length := by
  induction cs generalizing value with
  | nil => simp [parseNumber]
  | cons c cs ih =>
    unfold parseNumber
    split
    · exact Nat.le_succ_of_le (ih _)
    · simp

theorem parseLetters_length (buf : List Char) (idx : Nat) (cs : List Char)
    (r : List Char × List Char) (h : parseLetters buf idx cs = some r) :
    r.2.length ≤ cs.length := by
  induction cs generalizing buf idx with
  | nil => simp [parseLetters] at h; subst h; simp
  | cons c cs ih =>
    unfold parseLetters at h
    split at h
    · split at h
      · exact Nat.le_succ_of_le (ih _ _ h)
      · simp at h
    · simp at h; subst h; simp

/-- The main loop of `parse`, started at the `n`-th node with the input that is left.
Each iteration fills the current node and allocates the next one; after the last
character the node just allocated stays as it is and ends the list.  `none` is a
write past the end of `letterBuffer`. -/
def parseFrom {V : Type} (A : Arith V) (fresh : Nat → Token V) (n : Nat) :
    List Char → Option (List (Token V))
  | [] => some [fresh n]
  | c :: cs =>
    if c = '+' then
      (parseFrom A fresh (n + 1) cs).map
        (List.cons { fresh n with type := ADD_T, priority := ADD_P })
    else if c = '-' then
      (parseFrom A fresh (n + 1) cs).map
        (List.cons { fresh n with type := SUB_T, priority := SUB_P })
    else if c = '*' then
      (parseFrom A fresh (n + 1) cs).map
        (List.cons { fresh n with type := MUL_T, priority := MUL_P })
    else if c = '/' then
      (parseFrom A fresh (n + 1) cs).map
        (List.cons { fresh n with type := DIV_T, priority := DIV_P })
    else if c = '^' then
      (parseFrom A fresh (n + 1) cs).map
        (List.cons { fresh n with type := POW_T, priority := POW_P })
    else if c = '(' then
      (parseFrom A fresh (n + 1) cs).map
        (List.cons { fresh n with type := L_PAREN_T, priority := PAREN_P })
    else if c = ')' then
      (parseFrom A fresh (n + 1) cs).map
        (List.cons { fresh n with type := R_PAREN_T, priority := PAREN_P })
    else if isNumber c then
      match h : parseNumber A (A.ofInt (c.toNat - 48)) cs with
      | (v, rest) =>
        have : rest.length ≤ cs.length := by
          have := parseNumber_length A (A.ofInt (c.toNat - 48)) cs
          rw [h] at this; exact this
        (parseFrom A fresh (n + 1) rest).map
          (List.cons { value := v, type := NUM_T, priority := NUM_P })
    else if isLetter c then
      match h : parseLetters ((List.replicate 9 (Char.ofNat 0)).set 0 c) 0 cs with
      | none => none
      | some (buf, rest) =>
        have : rest.length ≤ cs.length := parseLetters_length _ _ _ _ h
        if compare "sqrt".toList buf then
          (parseFrom A fresh (n + 1) rest).map
            (List.cons { fresh n with type := SQRT_T, priority := SQRT_P })
        else
          (parseFrom A fresh (n + 1) rest).map (List.cons (fresh n))
    else
      (parseFrom A fresh (n + 1) cs).map (List.cons (fresh n))
termination_by cs => cs.length
decreasing_by all_goals simp_wf; all_goals omega

/-- The function `parse`: the list of all nodes, from the first one allocated. -/
def parse {V : Type} (A : Arith V) (fresh : Nat → Token V) (expr : String) :
    Option (List (Token V)) :=
  parseFrom A fresh 0 expr.toList

/-! ### `evaluator.c` and `main.c` -/

/-- The scan of `getHighestPriority`: `i` is the position of the node under the
cursor, `hi` and `hp` the position and priority of `highest`. -/
def highestFrom {V : Type} : List (Token V) → Nat → Nat → Nat → Nat × Nat
  | [], _, hi, hp => (hi, hp)
  | t :: ts, i, hi, hp =>
    if t.priority > hp then highestFrom ts (i + 1) i t.priority
    else highestFrom ts (i + 1) hi hp

/-- The function `getHighestPriority`: the position of the first node of highest
priority, or `none` (the C `NULL`) when that priority is zero.  On the empty list, where
the C function dereferences `NULL` in `highest->priority`, the value `none` given here
has no meaning: `evaluateStep` treats that call as undefined behaviour before it looks
at this value. -/
def getHighestPriority {V : Type} : List (Token V) → Option Nat
  | [] => none
  | t :: ts =>
    let r := highestFrom (t :: ts) 0 0 t.priority
    if r.2 ≠ 0 then some r.1 else none

/-- The statement `tok->priority += PAREN_P` on an `unsigned int`. -/
def boost {V : Type} (t : Token V) : Token V :=
  { t with priority := (t.priority + PAREN_P) % 2 ^ 32 }

/-- The inner `while (1)` of the `L_PAREN_T` case, from the node `tok` on, with the
`unsigned char parenCount`.  Returns the nodes as the loop leaves them and the
offset of the node at which it breaks; `none` when `tok` runs off the end of the list
(a `NULL` dereference). -/
def boostScan {V : Type} : List (Token V) → Nat → Option (List (Token V) × Nat)
  | [], _ => none
  | t :: rest, parenCount =>
    if t.type = L_PAREN_T then
      (boostScan rest ((parenCount + 1) % 256)).map
        (fun r => ((if t.type ≠ NUM_T then boost t else t) :: r.1, r.2 + 1))
    else if t.type = R_PAREN_T then
      if (parenCount + 255) % 256 = 0 then some (t :: rest, 0)
      else
        (boostScan rest ((parenCount + 255) % 256)).map
          (fun r => ((if t.type ≠ NUM_T then boost t else t) :: r.1, r.2 + 1))
    else
      (boostScan rest parenCount).map
        (fun r => ((if t.type ≠ NUM_T then boost t else t) :: r.1, r.2 + 1))

/-- What one turn of the outer `while (1)` of `evaluate` does. -/
inductive Step (V : Type) where
  /-- `getHighestPriority` returned `NULL`: the loop is left. -/
  | done : Step V
  /-- The turn ends with `break` of the `switch`; the list is now this one. -/
  | next : List (Token V) → Step V
  /-- The `default` case: the token is printed and the process calls `exit(EXIT_FAILURE)`. -/
  | exitFailure : Token V → Step V
  /-- A `NULL` pointer is dereferenced, or the list head is left pointing to a freed node. -/
  | undefined : Step V
deriving DecidableEq, Repr

/-- The five binary cases: `token->prev->value = f(token->prev->value, token->next->value)`
followed by `removeBinaryOperator(token)`. -/
def binaryCase {V : Type} (f : V → V → V) (tokens : List (Token V)) (i : Nat) : Step V :=
  if i = 0 then Step.undefined
  else
    match tokens.get? (i - 1), tokens.get? (i + 1) with
    | some p, some nx =>
      Step.next (removeBinaryOperator (tokens.set (i - 1) { p with value := f p.value nx.value }) i)
    | _, _ => Step.undefined

/-- The `L_PAREN_T` case: the boost scan from `token->next`, then the removal of the
opening node and of the node at which the scan stopped.  When the opening node is the
head and the scan stops at once, the head pointer is left on the freed closing node. -/
def parenCase {V : Type} (tokens : List (Token V)) (i : Nat) : Step V :=
  match boostScan (tokens.drop (i + 1)) 1 with
  | none => Step.undefined
  | some (scanned, j) =>
    match removeUnaryOperator (tokens.take (i + 1) ++ scanned) i with
    | none => Step.undefined
    | some ts =>
      if i + j = 0 then Step.undefined
      else
        match removeUnaryOperator ts (i + j) with
        | none => Step.undefined
        | some ts2 => Step.next ts2

/-- One turn of the loop of `evaluate`: selection and the `switch` on the type.  On the
empty list (`tokens == NULL`) the call of `getHighestPriority` reads `highest->priority`
through the `NULL` pointer. -/
def evaluateStep {V : Type} (A : Arith V) (tokens : List (Token V)) : Step V :=
  if tokens.isEmpty then Step.undefined
  else
    match getHighestPriority tokens with
    | none => Step.done
    | some i =>
      match tokens.get? i with
      | none => Step.undefined
      | some token =>
        if token.type = ADD_T then binaryCase A.add tokens i
        else if token.type = SUB_T then binaryCase A.sub tokens i
        else if token.type = MUL_T then binaryCase A.mul tokens i
        else if token.type = DIV_T then binaryCase A.div tokens i
        else if token.type = POW_T then binaryCase A.pow tokens i
        else if token.type = L_PAREN_T then parenCase tokens i
        else Step.exitFailure token

/-- How a run of `evaluate` ends. -/
inductive Outcome (V : Type) where
  /-- The function returns the head node, cut off from the rest by `tokens->next = NULL`. -/
  | returned : List (Token V) → Outcome V
  /-- The process exits with failure status after printing the token. -/
  | exitFailure : Token V → Outcome V
  /-- Undefined behaviour (see `Step.undefined`). -/
  | undefined : Outcome V
deriving DecidableEq, Repr

theorem removeUnaryOperator_length {V : Type} (tokens ts : List (Token V)) (i : Nat)
    (hi : i < tokens.length) (h : removeUnaryOperator tokens i = some ts) :
    ts.length + 1 = tokens.length := by
  unfold removeUnaryOperator at h
  split at h
  · simp at h
  · simp at h; subst h
    rw [List.length_eraseIdx, if_pos hi]; omega

theorem boostScan_length {V : Type} (ts : List (Token V)) (c : Nat)
    (r : List (Token V) × Nat) (h : boostScan ts c = some r) :
    r.1.length = ts.length ∧ r.2 < ts.length := by
  induction ts generalizing c r with
  | nil => simp [boostScan] at h
  | cons t rest ih =>
    unfold boostScan at h
    split at h
    · simp only [Option.map_eq_some'] at h
      obtain ⟨r2, h2, rfl⟩ := h
      have := ih _ _ h2
      simp; omega
    · split at h
      · split at h
        · simp at h; subst h; simp
        · simp only [Option.map_eq_some'] at h
          obtain ⟨r2, h2, rfl⟩ := h
          have := ih _ _ h2
          simp; omega
      · simp only [Option.map_eq_some'] at h
        obtain ⟨r2, h2, rfl⟩ := h
        have := ih _ _ h2
        simp; omega

theorem binaryCase_length {V : Type} (f : V → V → V) (tokens ts : List (Token V)) (i : Nat)
    (h : binaryCase f tokens i = Step.next ts) : ts.length + 2 = tokens.length := by
  unfold binaryCase at h
  split at h
  · simp at h
  · split at h
    · rename_i p nx hp hn
      simp only [Step.next.injEq] at h
      subst h
      have h1 : i + 1 < tokens.length := by
        rcases List.get?_eq_some.1 hn with ⟨hlt, _⟩
        exact hlt
      simp [removeBinaryOperator]
      omega
    · simp at h

theorem parenCase_length {V : Type} (tokens ts : List (Token V)) (i : Nat)
    (hi : i < tokens.length) (h : parenCase tokens i = Step.next ts) :
    ts.length + 2 = tokens.length := by
  unfold parenCase at h
  split at h
  · simp at h
  · rename_i scanned j hs
    have hb := boostScan_length _ _ _ hs
    simp at hb
    split at h
    · simp at h
    · rename_i ts1 h1
      have l1 := removeUnaryOperator_length _ _ _ (by simp; omega) h1
      simp at l1
      split at h
      · simp at h
      · split at h
        · simp at h
        · rename_i ts2 h2
          simp only [Step.next.injEq] at h
          subst h
          have l2 := removeUnaryOperator_length _ _ _ (by omega) h2
          omega

theorem evaluateStep_length {V : Type} (A : Arith V) (tokens ts : List (Token V))
    (h : evaluateStep A tokens = Step.next ts) : ts.length + 2 = tokens.length := by
  by_cases he : tokens.isEmpty = true
  · rw [evaluateStep, if_pos he] at h
    cases h
  rw [evaluateStep, if_neg he] at h
  split at h
  · simp at h
  · split at h
    · simp at h
    · rename_i _ i _ _ token hg
      have hi : i < tokens.length := (List.get?_eq_some.1 hg).1
      split_ifs at h
      · exact binaryCase_length _ _ _ _ h
      · exact binaryCase_length _ _ _ _ h
      · exact binaryCase_length _ _ _ _ h
      · exact binaryCase_length _ _ _ _ h
      · exact binaryCase_length _ _ _ _ h
      · exact parenCase_length _ _ _ hi h

/-- The loop `while (1)` of `evaluate` and its epilogue `tokens->next = NULL; return tokens`. -/
def evaluateLoop {V : Type} (A : Arith V) (tokens : List (Token V)) : Outcome V :=
  match h : evaluateStep A tokens with
  | Step.done => Outcome.returned (tokens.take 1)
  | Step.next ts =>
    have : ts.length < tokens.length := by
      have := evaluateStep_length A tokens ts h
      omega
    evaluateLoop A ts
  | Step.exitFailure token => Outcome.exitFailure token
  | Step.undefined => Outcome.undefined
termination_by tokens.length

/-- The function `evaluate`. -/
def evaluate {V : Type} (A : Arith V) (tokens : List (Token V)) : Outcome V :=
  evaluateLoop A tokens

/-- The call `evaluate(parse(expr))` of `main`. -/
def run {V : Type} (A : Arith V) (fresh : Nat → Token V) (expr : String) :
    Option (Outcome V) :=
  (parse A fresh expr).map (evaluate A)

/-- The function `main` of `C/src/main.c` from the test `!strcmp(argv[1], "")` on:
the empty argument is refused with a message (given here without its newline) and
`exit(EXIT_FAILURE)`, any other one is handed to `parse` and `evaluate`.  The calls of
`printTokens` are left out. -/
def main {V : Type} (A : Arith V) (fresh : Nat → Token V) (arg : String) :
    Except String (Option (Outcome V)) :=
  if arg = "" then Except.error "Cannot parse an empty string"
  else Except.ok (run A fresh arg)

/-! ### Notions of the statements and of their proofs -/

/-- An integer literal of the input: a non-empty run of decimal digits. -/
def IsLiteral (s : String) : Prop := s.toList ≠ [] ∧ ∀ c ∈ s.toList, isNumber c = true

instance (s : String) : Decidable (IsLiteral s) := by
  unfold IsLiteral; infer_instance

/-- The value `parse` gives to a digit run: the first digit `*expr - 48`, then the loop
of `parseNumber` over the others. -/
def literalValue {V : Type} (A : Arith V) (s : String) : V :=
  match s.toList with
  | [] => A.ofInt 0
  | c :: cs => (parseNumber A (A.ofInt (c.toNat - 48)) cs).1

/-- The number a digit string denotes in base ten (`parseInt`), by positional value. -/
def parseInt (s : String) : Nat :=
  Nat.ofDigits 10 (s.toList.reverse.map (fun c => c.toNat - 48))

/-- The binary operators of the input language. -/
inductive Op where
  | add | sub | mul | div | pow
deriving DecidableEq, Repr

/-- The token type `parse` gives to an operator. -/
def Op.type : Op → Nat
  | .add => ADD_T | .sub => SUB_T | .mul => MUL_T | .div => DIV_T | .pow => POW_T

/-- The priority `parse` gives to an operator. -/
def Op.prec : Op → Nat
  | .add => ADD_P | .sub => SUB_P | .mul => MUL_P | .div => DIV_P | .pow => POW_P

/-- The arithmetic `evaluate` performs for an operator. -/
def Op.apply {V : Type} (A : Arith V) : Op → V → V → V
  | .add => A.add | .sub => A.sub | .mul => A.mul | .div => A.div | .pow => A.pow

/-- A partially reduced expression: what a token list stands for in the course of
`evaluate`.  `num` is a Number token, `bin` an operator token between two operands,
`paren` a pair of parenthesis tokens still in the list, `opened` the content of a pair
that was removed (its tokens carry the boost).  The `V` fields of `bin` and `paren` are
the unused `value` fields of the operator and parenthesis tokens. -/
inductive Cfg (V : Type) where
  | num (v : V)
  | bin (j : V) (o : Op) (l r : Cfg V)
  | paren (j1 j2 : V) (c : Cfg V)
  | opened (c : Cfg V)

/-- The token list of a partially reduced expression under the boost `k`. -/
def Cfg.tokens {V : Type} : Nat → Cfg V → List (Token V)
  | _, .num v => [⟨v, NUM_T, NUM_P⟩]
  | k, .bin j o l r => Cfg.tokens k l ++ ⟨j, o.type, o.prec + k⟩ :: Cfg.tokens k r
  | k, .paren j1 j2 c =>
    ⟨j1, L_PAREN_T, PAREN_P + k⟩ :: (Cfg.tokens k c ++ [⟨j2, R_PAREN_T, PAREN_P + k⟩])
  | k, .opened c => Cfg.tokens (k + PAREN_P) c

/-- Nesting depth of parentheses, removed pairs included. -/
def Cfg.depth {V : Type} : Cfg V → Nat
  | .num _ => 0
  | .bin _ _ l r => max (Cfg.depth l) (Cfg.depth r)
  | .paren _ _ c => Cfg.depth c + 1
  | .opened c => Cfg.depth c + 1

/-- The value a partially reduced expression denotes. -/
def Cfg.value {V : Type} (A : Arith V) : Cfg V → V
  | .num v => v
  | .bin _ o l r => o.apply A (Cfg.value A l) (Cfg.value A r)
  | .paren _ _ c => Cfg.value A c
  | .opened c => Cfg.value A c

/-- Binding strength of the top of an expression: the priority of its operator, or 6
for an atom (a number or a parenthesised expression). -/
def Cfg.level {V : Type} : Cfg V → Nat
  | .bin _ o _ _ => o.prec
  | _ => 6

/-- The highest priority among the tokens of a list (0 for the empty list). -/
def maxPriority {V : Type} (ts : List (Token V)) : Nat :=
  ts.foldr (fun t m => max t.priority m) 0

/-- The two reductions of `evaluate`, on the tokens they touch: an operator of priority
`M` between two Number tokens, and a parenthesis pair of priority `M` around the tokens
of an expression. -/
inductive Redex {V : Type} (A : Arith V) : List (Token V) → Nat → List (Token V) → Prop where
  | bin (a b j : V) (o : Op) (M : Nat) :
      Redex A [⟨a, NUM_T, NUM_P⟩, ⟨j, o.type, M⟩, ⟨b, NUM_T, NUM_P⟩] M
        [⟨o.apply A a b, NUM_T, NUM_P⟩]
  | par (j1 j2 : V) (d : Cfg V) (k M M2 : Nat) (hd : d.depth ≤ 254)
      (hb : k + 9 * d.depth + 18 ≤ 2 ^ 32) (hin : ∀ x ∈ d.tokens k, x.priority ≤ M)
      (hM2 : M2 ≤ M) (hMk : M = PAREN_P + k) :
      Redex A (⟨j1, L_PAREN_T, M⟩ :: (d.tokens k ++ [⟨j2, R_PAREN_T, M2⟩])) M
        (d.tokens (k + PAREN_P))

/-- Expressions of the input language: integer literals, binary operators,
parentheses. -/
inductive Expr where
  | lit (s : String)
  | bin (o : Op) (l r : Expr)
  | paren (e : Expr)
deriving Repr

/-- Binding strength of the top of an expression (see `Cfg.level`). -/
def Expr.level : Expr → Nat
  | .bin o _ _ => o.prec
  | _ => 6

/-- Nesting depth of parentheses. -/
def Expr.depth : Expr → Nat
  | .lit _ => 0
  | .bin _ l r => max (Expr.depth l) (Expr.depth r)
  | .paren e => Expr.depth e + 1

/-- The value of an expression in the arithmetic `A`. -/
def Expr.value {V : Type} (A : Arith V) : Expr → V
  | .lit s => literalValue A s
  | .bin o l r => o.apply A (Expr.value A l) (Expr.value A r)
  | .paren e => Expr.value A e

/-- The integer an expression over `+`, `-`, `*` denotes, in exact arithmetic: literals
by their decimal value, operators by the operations of the integers.  Expressions with
`/` or `^` are outside this grammar and get 0. -/
def Expr.denote : Expr → Int
  | .lit s => (parseInt s : Int)
  | .bin .add l r => Expr.denote l + Expr.denote r
  | .bin .sub l r => Expr.denote l - Expr.denote r
  | .bin .mul l r => Expr.denote l * Expr.denote r
  | .bin _ _ _ => 0
  | .paren e => Expr.denote e

/-- No operation of the expression is rounded: every literal has a value of at most
`2^53 - 48` (the digit loop adds the code of the digit character, 48 more than the
digit, before it subtracts 48), and every operator application has an exact result of
magnitude at most `2^53`. -/
def Expr.Bounded : Expr → Prop
  | .lit s => parseInt s + 48 ≤ 2 ^ 53
  | .bin o l r =>
    Expr.Bounded l ∧ Expr.Bounded r ∧ (Expr.denote (.bin o l r)).natAbs ≤ 2 ^ 53
  | .paren e => Expr.Bounded e

/-- Memory that reads as zero everywhere, as a fresh heap provides it. -/
def zeroed : Nat → Token Int := fun _ => ⟨0, 0, 0⟩

/-- The same memory for the arithmetic of `double`: every byte is zero, so that
`value` is 0.0, `type` is 0 and `priority` is 0. -/
def cleared : Nat → Token (Option Int) := fun _ => ⟨some 0, 0, 0⟩

/-- Memory of which every byte is `0xAA`, as `malloc` of glibc returns it when run with
`MALLOC_PERTURB_=85`: `type` is 170, `priority` is `0xAAAAAAAA` = 2863311530, and `value`
is a `double` of magnitude about `3.7e-103`, not an integer. -/
def stale : Nat → Token (Option Int) := fun _ => ⟨none, 170, 2863311530⟩

/-- The units of an input over digits and operator characters, in input order: each
maximal run of digits is one unit, every other character is a unit of its own.  A
digit joins the unit after it exactly when that unit starts with a digit. -/
def lexemes : List Char → List (List Char)
  | [] => []
  | c :: cs =>
    match lexemes cs with
    | (d :: ds) :: rest =>
      if isNumber c && isNumber d then (c :: d :: ds) :: rest else [c] :: (d :: ds) :: rest
    | _ => [c] :: lexemes cs

/-- The token a unit stands for: the kind of its character with the priority of the
table (Add 3, Sub 3, Mul 4, Div 4, Pow 5, parentheses 9), or a Number of priority 0
whose value is that of the digit run.  The `value` field of an operator or parenthesis
token is not written: it is that of the node as allocated, `node`. -/
def lexToken {V : Type} (A : Arith V) (node : Token V) (g : List Char) : Token V :=
  if g = ['+'] then ⟨node.value, ADD_T, 3⟩
  else if g = ['-'] then ⟨node.value, SUB_T, 3⟩
  else if g = ['*'] then ⟨node.value, MUL_T, 4⟩
  else if g = ['/'] then ⟨node.value, DIV_T, 4⟩
  else if g = ['^'] then ⟨node.value, POW_T, 5⟩
  else if g = ['('] then ⟨node.value, L_PAREN_T, 9⟩
  else if g = [')'] then ⟨node.value, R_PAREN_T, 9⟩
  else ⟨literalValue A (String.mk g), NUM_T, 0⟩

/-- The tokens of a list of units laid out from node `n` on. -/
def lexTokens {V : Type} (A : Arith V) (fresh : Nat → Token V) : Nat → List (List Char) →
    List (Token V)
  | _, [] => []
  | n, g :: gs => lexToken A (fresh n) g :: lexTokens A fresh (n + 1) gs

/-- The characters of the arithmetic input language: digits, operators, parentheses. -/
def Allowed (c : Char) : Prop :=
  isNumber c = true ∨ c = '+' ∨ c = '-' ∨ c = '*' ∨ c = '/' ∨ c = '^' ∨ c = '(' ∨ c = ')'

instance (c : Char) : Decidable (Allowed c) := by
  unfold Allowed; infer_instance

/-- The text of `1` inside `n` pairs of parentheses. -/
def nestedText (n : Nat) : String :=
  String.mk (List.replicate n '(' ++ '1' :: List.replicate n ')')

/-- The nodes `parse` makes of `nestedText n` in memory that reads as zero. -/
def nestedTokens (n : Nat) : List (Token Int) :=
  List.replicate n ⟨0, L_PAREN_T, 9⟩ ++ ⟨1, NUM_T, 0⟩ :: (List.replicate n ⟨0, R_PAREN_T, 9⟩ ++
    [⟨0, 0, 0⟩])

/-- The text of `1` inside `n` pairs of parentheses, followed by `+(2)`. -/
def nestedSumText (n : Nat) : String :=
  String.mk (List.replicate n '(' ++ '1' :: (List.replicate n ')' ++ ['+', '(', '2', ')']))

/-- The nodes `parse` makes of `nestedSumText n` in memory that reads as zero. -/
def nestedSumTokens (n : Nat) : List (Token Int) :=
  List.replicate n ⟨0, L_PAREN_T, 9⟩ ++ ⟨1, NUM_T, 0⟩ :: (List.replicate n ⟨0, R_PAREN_T, 9⟩ ++
    [⟨0, ADD_T, 3⟩, ⟨0, L_PAREN_T, 9⟩, ⟨2, NUM_T, 0⟩, ⟨0, R_PAREN_T, 9⟩, ⟨0, 0, 0⟩])

/-- The offset, from the node after a left parenthesis, of the right parenthesis that
matches it: `depth` counts the parentheses open at the cursor as a natural number, not
in a byte. -/
def matchingOffset {V : Type} : List (Token V) → Nat → Option Nat
  | [], _ => none
  | t :: rest, depth =>
    if t.type = L_PAREN_T then (matchingOffset rest (depth + 1)).map (fun j => j + 1)
    else if t.type = R_PAREN_T then
      if depth = 1 then some 0 else (matchingOffset rest (depth - 1)).map (fun j => j + 1)
    else (matchingOffset rest depth).map (fun j => j + 1)

/-! ## Lemmas -/

section Proofs
variable {V : Type}

theorem evaluateLoop_exit (A : Arith V) (ts : List (Token V)) (t : Token V)
    (h : evaluateStep A ts = Step.exitFailure t) :
    evaluateLoop A ts = Outcome.exitFailure t := by
  rw [evaluateLoop]; split <;> simp_all

theorem evaluateLoop_undefined (A : Arith V) (ts : List (Token V))
    (h : evaluateStep A ts = Step.undefined) : evaluateLoop A ts = Outcome.undefined := by
  rw [evaluateLoop]; split <;> simp_all

theorem isNumber_toNat {c : Char} (h : isNumber c = true) : 48 ≤ c.toNat ∧ c.toNat ≤ 57 := by
  simp [isNumber] at h; omega

theorem isNumber_not_op {c : Char} (h : isNumber c = true) :
    c ≠ '+' ∧ c ≠ '-' ∧ c ≠ '*' ∧ c ≠ '/' ∧ c ≠ '^' ∧ c ≠ '(' ∧ c ≠ ')' := by
  have h1 := isNumber_toNat h
  refine ⟨?_, ?_, ?_, ?_, ?_, ?_, ?_⟩ <;> rintro rfl <;> revert h1 <;> decide

theorem parseNumber_digits (A : Arith V) (v : V) (ds rest : List Char)
    (hd : ∀ c ∈ ds, isNumber c = true) (hr : ∀ c ∈ rest.head?, isNumber c = false) :
    parseNumber A v (ds ++ rest) = ((parseNumber A v ds).1, rest) := by
  induction ds generalizing v with
  | nil =>
    cases rest with
    | nil => simp [parseNumber]
    | cons c cs =>
      have : isNumber c = false := hr c (by simp)
      simp [parseNumber, this]
  | cons d ds ih =>
    have hd1 : isNumber d = true := hd d (by simp)
    simp only [List.cons_append, parseNumber, hd1, if_true]
    exact ih _ (fun c hc => hd c (by simp [hc]))

theorem parseFrom_nil (A : Arith V) (fresh : Nat → Token V) (n : Nat) :
    parseFrom A fresh n [] = some [fresh n] := by
  rw [parseFrom]

theorem parseFrom_add (A : Arith V) (fresh : Nat → Token V) (n : Nat) (cs : List Char) :
    parseFrom A fresh n ('+' :: cs) = (parseFrom A fresh (n + 1) cs).map
      (List.cons ⟨(fresh n).value, ADD_T, ADD_P⟩) := by
  rw [parseFrom]; simp

theorem parseFrom_sub (A : Arith V) (fresh : Nat → Token V) (n : Nat) (cs : List Char) :
    parseFrom A fresh n ('-' :: cs) = (parseFrom A fresh (n + 1) cs).map
      (List.cons ⟨(fresh n).value, SUB_T, SUB_P⟩) := by
  rw [parseFrom]; simp

theorem parseFrom_mul (A : Arith V) (fresh : Nat → Token V) (n : Nat) (cs : List Char) :
    parseFrom A fresh n ('*' :: cs) = (parseFrom A fresh (n + 1) cs).map
      (List.cons ⟨(fresh n).value, MUL_T, MUL_P⟩) := by
  rw [parseFrom]; simp

theorem parseFrom_div (A : Arith V) (fresh : Nat → Token V) (n : Nat) (cs : List Char) :
    parseFrom A fresh n ('/' :: cs) = (parseFrom A fresh (n + 1) cs).map
      (List.cons ⟨(fresh n).value, DIV_T, DIV_P⟩) := by
  rw [parseFrom]; simp

theorem parseFrom_pow (A : Arith V) (fresh : Nat → Token V) (n : Nat) (cs : List Char) :
    parseFrom A fresh n ('^' :: cs) = (parseFrom A fresh (n + 1) cs).map
      (List.cons ⟨(fresh n).value, POW_T, POW_P⟩) := by
  rw [parseFrom]; simp

theorem parseFrom_lparen (A : Arith V) (fresh : Nat → Token V) (n : Nat) (cs : List Char) :
    parseFrom A fresh n ('(' :: cs) = (parseFrom A fresh (n + 1) cs).map
      (List.cons ⟨(fresh n).value, L_PAREN_T, PAREN_P⟩) := by
  rw [parseFrom]; simp

theorem parseFrom_rparen (A : Arith V) (fresh : Nat → Token V) (n : Nat) (cs : List Char) :
    parseFrom A fresh n (')' :: cs) = (parseFrom A fresh (n + 1) cs).map
      (List.cons ⟨(fresh n).value, R_PAREN_T, PAREN_P⟩) := by
  rw [parseFrom]; simp

theorem parseFrom_literal (A : Arith V) (fresh : Nat → Token V) (n : Nat) (s : String)
    (rest : List Char) (hs : IsLiteral s) (hr : ∀ c ∈ rest.head?, isNumber c = false) :
    parseFrom A fresh n (s.toList ++ rest) = (parseFrom A fresh (n + 1) rest).map
      (List.cons ⟨literalValue A s, NUM_T, NUM_P⟩) := by
  obtain ⟨hne, hd⟩ := hs
  unfold literalValue
  cases hl : s.toList with
  | nil => exact absurd hl hne
  | cons d ds =>
    rw [hl] at hd
    have hd1 : isNumber d = true := hd d (by simp)
    obtain ⟨h1, h2, h3, h4, h5, h6, h7⟩ := isNumber_not_op hd1
    have hp := parseNumber_digits A (A.ofInt (d.toNat - 48)) ds rest
      (fun c hc => hd c (by simp [hc])) hr
    rw [List.cons_append, parseFrom]
    simp only [h1, h2, h3, h4, h5, h6, h7, if_false, hd1, if_true]
    rw [hp]

theorem highestFrom_le (ts : List (Token V)) (i hi hp : Nat)
    (h : ∀ x ∈ ts, x.priority ≤ hp) : highestFrom ts i hi hp = (hi, hp) := by
  induction ts generalizing i with
  | nil => rfl
  | cons t ts ih =>
    have h1 : ¬ t.priority > hp := by have := h t (by simp); omega
    simp only [highestFrom, h1, if_false]
    exact ih _ (fun x hx => h x (by simp [hx]))

theorem highestFrom_select (pre post : List (Token V)) (t : Token V) (i hi hp : Nat)
    (hhp : hp < t.priority) (hpre : ∀ x ∈ pre, x.priority < t.priority)
    (hpost : ∀ x ∈ post, x.priority ≤ t.priority) :
    highestFrom (pre ++ t :: post) i hi hp = (i + pre.length, t.priority) := by
  induction pre generalizing i hi hp with
  | nil =>
    simp only [List.nil_append, highestFrom, gt_iff_lt, hhp, if_true, List.length_nil, Nat.add_zero]
    exact highestFrom_le post _ _ _ hpost
  | cons p pre ih =>
    have hp1 : p.priority < t.priority := hpre p (by simp)
    have hpre2 : ∀ x ∈ pre, x.priority < t.priority := fun x hx => hpre x (by simp [hx])
    rw [List.cons_append, highestFrom, List.length_cons]
    split
    · rw [ih _ _ _ hp1 hpre2]; congr 1; omega
    · rw [ih _ _ _ hhp hpre2]; congr 1; omega

theorem getHighestPriority_select (pre post : List (Token V)) (t : Token V)
    (h0 : t.priority ≠ 0) (hpre : ∀ x ∈ pre, x.priority < t.priority)
    (hpost : ∀ x ∈ post, x.priority ≤ t.priority) :
    getHighestPriority (pre ++ t :: post) = some pre.length := by
  cases pre with
  | nil =>
    simp only [List.nil_append, getHighestPriority, highestFrom, gt_iff_lt, Nat.lt_irrefl,
      if_false, List.length_nil]
    rw [highestFrom_le post _ _ _ hpost]
    simp [h0]
  | cons p pre =>
    have hp1 : p.priority < t.priority := hpre p (by simp)
    have hpre2 : ∀ x ∈ pre, x.priority < t.priority := fun x hx => hpre x (by simp [hx])
    simp only [List.cons_append, getHighestPriority, highestFrom, gt_iff_lt, Nat.lt_irrefl,
      if_false, List.length_cons]
    rw [highestFrom_select pre post t _ _ _ hp1 hpre2 hpost]
    simp [h0, Nat.add_comm]

theorem getHighestPriority_none (ts : List (Token V)) (h : ∀ x ∈ ts, x.priority = 0) :
    getHighestPriority ts = none := by
  cases ts with
  | nil => rfl
  | cons t ts =>
    have ht : t.priority = 0 := h t (by simp)
    simp only [getHighestPriority]
    rw [highestFrom_le (t :: ts) _ _ _ (fun x hx => by rw [h x hx]; omega)]
    simp [ht]

theorem binaryCase_eq (f : V → V → V) (pre post : List (Token V)) (p t nx : Token V) :
    binaryCase f (pre ++ p :: t :: nx :: post) (pre.length + 1) =
      Step.next (pre ++ { p with value := f p.value nx.value } :: post) := by
  have h1 : (pre ++ p :: t :: nx :: post).get? (pre.length + 1 - 1) = some p := by
    rw [List.get?_eq_getElem?, List.getElem?_append_right (by omega)]
    simp
  have h2 : (pre ++ p :: t :: nx :: post).get? (pre.length + 1 + 1) = some nx := by
    rw [List.get?_eq_getElem?, List.getElem?_append_right (by omega)]
    have : pre.length + 1 + 1 - pre.length = 2 := by omega
    rw [this]; simp
  unfold binaryCase
  rw [if_neg (by omega), h1, h2]
  simp only [removeBinaryOperator]
  congr 1
  have e : pre.length + 1 - 1 = pre.length := by omega
  rw [e]
  have hs : (pre ++ p :: t :: nx :: post).set pre.length { p with value := f p.value nx.value }
      = pre ++ { p with value := f p.value nx.value } :: t :: nx :: post := by
    simp
  rw [hs]
  have e3 : pre.length + 1 = (pre ++ [{ p with value := f p.value nx.value }]).length := by simp
  have e4 : pre ++ { p with value := f p.value nx.value } :: t :: nx :: post =
      (pre ++ [{ p with value := f p.value nx.value }]) ++ t :: nx :: post := by simp
  rw [e4, e3, List.take_left, List.drop_append]
  simp

theorem Op.type_cases (o : Op) :
    o.type ≠ L_PAREN_T ∧ o.type ≠ R_PAREN_T ∧ o.type ≠ NUM_T := by
  cases o <;> decide

theorem Op.prec_bounds (o : Op) : 3 ≤ o.prec ∧ o.prec ≤ 5 := by
  cases o <;> decide

theorem Cfg.tokens_ne_nil (c : Cfg V) (k : Nat) : c.tokens k ≠ [] := by
  induction c generalizing k with
  | num v => simp [Cfg.tokens]
  | bin j o l r _ _ => simp [Cfg.tokens]
  | paren j1 j2 c _ => simp [Cfg.tokens]
  | opened c ih => simpa [Cfg.tokens] using ih _

theorem Cfg.tokens_length_pos (c : Cfg V) (k : Nat) : 0 < (c.tokens k).length :=
  List.length_pos.2 (c.tokens_ne_nil k)

theorem boost_eq (v : V) (ty p : Nat) (h : p + 9 < 2 ^ 32) :
    boost (⟨v, ty, p⟩ : Token V) = ⟨v, ty, p + PAREN_P⟩ := by
  simp only [boost, PAREN_P]
  rw [Nat.mod_eq_of_lt h]

theorem boostScan_tokens (c : Cfg V) (k count : Nat) (rest : List (Token V))
    (res : List (Token V) × Nat)
    (h1 : 1 ≤ count) (h2 : count + c.depth ≤ 255) (h3 : k + 9 * c.depth + 18 ≤ 2 ^ 32)
    (hr : boostScan rest count = some res) :
    boostScan (c.tokens k ++ rest) count =
      some (c.tokens (k + PAREN_P) ++ res.1, res.2 + (c.tokens k).length) := by
  induction c generalizing k count rest res with
  | num v =>
    simp [Cfg.tokens, boostScan, NUM_T, L_PAREN_T, R_PAREN_T, hr]
  | bin j o cl cr ihl ihr =>
    obtain ⟨t1, t2, t3⟩ := o.type_cases
    have hp := o.prec_bounds
    simp only [Cfg.depth] at h2 h3
    have m1 := Nat.le_max_left cl.depth cr.depth
    have m2 := Nat.le_max_right cl.depth cr.depth
    have hr2 := ihr k count rest res h1 (by omega) (by omega) hr
    have hop : boostScan (⟨j, o.type, o.prec + k⟩ :: (cr.tokens k ++ rest)) count =
        some (⟨j, o.type, o.prec + (k + PAREN_P)⟩ :: (cr.tokens (k + PAREN_P) ++ res.1),
          res.2 + (cr.tokens k).length + 1) := by
      rw [boostScan]
      simp only [t1, t2, t3, if_false, ne_eq, not_false_eq_true, if_true, hr2, Option.map_some']
      rw [boost_eq _ _ _ (by omega), Nat.add_assoc]
    have hl2 := ihl k count _ _ h1 (by omega) (by omega) hop
    simp only [Cfg.tokens, List.append_assoc, List.cons_append, hl2, List.length_append,
      List.length_cons]
    congr 2
    omega
  | paren j1 j2 c ih =>
    simp only [Cfg.depth] at h2 h3
    have hR : boostScan (⟨j2, R_PAREN_T, PAREN_P + k⟩ :: rest) (count + 1) =
        some (⟨j2, R_PAREN_T, PAREN_P + (k + PAREN_P)⟩ :: res.1, res.2 + 1) := by
      rw [boostScan]
      have e1 : (count + 1 + 255) % 256 = count := by omega
      have e2 : count ≠ 0 := by omega
      have e3 : R_PAREN_T ≠ L_PAREN_T := by decide
      have e4 : R_PAREN_T ≠ NUM_T := by decide
      simp only [e3, if_false, if_true, e1, e2, hr, Option.map_some', ne_eq, e4,
        not_false_eq_true]
      rw [boost_eq _ _ _ (by simp only [PAREN_P]; omega), Nat.add_assoc]
    have hc := ih k (count + 1) _ _ (by omega) (by omega) (by omega) hR
    have e0 : (count + 1) % 256 = count + 1 := by omega
    have e5 : L_PAREN_T ≠ NUM_T := by decide
    rw [Cfg.tokens, List.cons_append, boostScan]
    simp only [List.append_assoc, List.singleton_append, if_true, e0, hc, Option.map_some',
      ne_eq, e5, not_false_eq_true]
    rw [boost_eq _ _ _ (by simp only [PAREN_P]; omega), Nat.add_assoc]
    simp only [Cfg.tokens, List.cons_append, List.append_assoc, List.singleton_append,
      List.length_cons, List.length_append, List.length_nil]
    congr 2
    omega
  | opened c ih =>
    simp only [Cfg.depth] at h2 h3
    have hc := ih (k + PAREN_P) count rest res h1 (by omega) (by simp only [PAREN_P]; omega) hr
    simpa [Cfg.tokens] using hc

theorem Cfg.tokens_length (c : Cfg V) (k k2 : Nat) :
    (c.tokens k).length = (c.tokens k2).length := by
  induction c generalizing k k2 with
  | num v => rfl
  | bin j o l r ihl ihr => simp [Cfg.tokens, ihl k k2, ihr k k2]
  | paren j1 j2 c ih => simp [Cfg.tokens, ih k k2]
  | opened c ih => simp only [Cfg.tokens]; exact ih _ _

theorem eraseIdx_middle (pre post : List (Token V)) (t : Token V) :
    (pre ++ t :: post).eraseIdx pre.length = pre ++ post := by
  rw [List.eraseIdx_append_of_length_le (Nat.le_refl _)]
  simp

theorem parenCase_tokens (pre post : List (Token V)) (c : Cfg V) (k : Nat) (j1 j2 : V)
    (M M2 : Nat) (hd : c.depth ≤ 254) (hb : k + 9 * c.depth + 18 ≤ 2 ^ 32) :
    parenCase (pre ++ ⟨j1, L_PAREN_T, M⟩ :: (c.tokens k ++ ⟨j2, R_PAREN_T, M2⟩ :: post))
        pre.length =
      Step.next (pre ++ (c.tokens (k + PAREN_P) ++ post)) := by
  have hR : boostScan (⟨j2, R_PAREN_T, M2⟩ :: post) 1 = some (⟨j2, R_PAREN_T, M2⟩ :: post, 0) := by
    rw [boostScan]
    have e3 : R_PAREN_T ≠ L_PAREN_T := by decide
    simp [e3]
  have hs := boostScan_tokens c k 1 _ _ (Nat.le_refl 1) (by omega) hb hR
  have hdrop : (pre ++ ⟨j1, L_PAREN_T, M⟩ :: (c.tokens k ++ ⟨j2, R_PAREN_T, M2⟩ :: post)).drop
      (pre.length + 1) = c.tokens k ++ ⟨j2, R_PAREN_T, M2⟩ :: post := by
    have : pre ++ ⟨j1, L_PAREN_T, M⟩ :: (c.tokens k ++ ⟨j2, R_PAREN_T, M2⟩ :: post) =
        (pre ++ [⟨j1, L_PAREN_T, M⟩]) ++ (c.tokens k ++ ⟨j2, R_PAREN_T, M2⟩ :: post) := by simp
    rw [this, List.drop_left' (by simp)]
  have htake : (pre ++ ⟨j1, L_PAREN_T, M⟩ :: (c.tokens k ++ ⟨j2, R_PAREN_T, M2⟩ :: post)).take
      (pre.length + 1) = pre ++ [⟨j1, L_PAREN_T, M⟩] := by
    have : pre ++ ⟨j1, L_PAREN_T, M⟩ :: (c.tokens k ++ ⟨j2, R_PAREN_T, M2⟩ :: post) =
        (pre ++ [⟨j1, L_PAREN_T, M⟩]) ++ (c.tokens k ++ ⟨j2, R_PAREN_T, M2⟩ :: post) := by simp
    rw [this, List.take_left' (by simp)]
  have hpos := c.tokens_length_pos k
  have hlen := c.tokens_length k (k + PAREN_P)
  unfold parenCase
  rw [hdrop, hs, htake]
  simp only []
  have r1 : removeUnaryOperator (pre ++ [⟨j1, L_PAREN_T, M⟩] ++
      (c.tokens (k + PAREN_P) ++ ⟨j2, R_PAREN_T, M2⟩ :: post)) pre.length =
      some (pre ++ (c.tokens (k + PAREN_P) ++ ⟨j2, R_PAREN_T, M2⟩ :: post)) := by
    unfold removeUnaryOperator
    rw [if_neg (by simp)]
    rw [List.append_assoc, List.singleton_append, eraseIdx_middle]
  rw [r1]
  simp only []
  rw [if_neg (by omega)]
  have r2 : removeUnaryOperator (pre ++ (c.tokens (k + PAREN_P) ++ ⟨j2, R_PAREN_T, M2⟩ :: post))
      (pre.length + (0 + (c.tokens k).length)) = some (pre ++ (c.tokens (k + PAREN_P) ++ post)) := by
    unfold removeUnaryOperator
    rw [if_neg (by omega)]
    have e : pre.length + (0 + (c.tokens k).length) = (pre ++ c.tokens (k + PAREN_P)).length := by
      simp; omega
    rw [e, ← List.append_assoc, eraseIdx_middle, List.append_assoc]
  rw [r2]

theorem evaluateStep_binary (A : Arith V) (pre post : List (Token V)) (p nx : Token V)
    (j : V) (o : Op) (M : Nat) (h0 : M ≠ 0)
    (hp : p.priority < M) (hpre : ∀ x ∈ pre, x.priority < M)
    (hn : nx.priority ≤ M) (hpost : ∀ x ∈ post, x.priority ≤ M) :
    evaluateStep A (pre ++ p :: ⟨j, o.type, M⟩ :: nx :: post) =
      Step.next (pre ++ { p with value := o.apply A p.value nx.value } :: post) := by
  have hsel : getHighestPriority (pre ++ p :: ⟨j, o.type, M⟩ :: nx :: post) =
      some (pre.length + 1) := by
    have := getHighestPriority_select (pre ++ [p]) (nx :: post) (⟨j, o.type, M⟩ : Token V) h0
      (by
        intro x hx
        rcases List.mem_append.1 hx with h | h
        · exact hpre x h
        · simp at h; subst h; exact hp)
      (by
        intro x hx
        rcases List.mem_cons.1 hx with h | h
        · subst h; exact hn
        · exact hpost x h)
    simpa using this
  have hget : (pre ++ p :: ⟨j, o.type, M⟩ :: nx :: post).get? (pre.length + 1) =
      some ⟨j, o.type, M⟩ := by
    rw [List.get?_eq_getElem?, List.getElem?_append_right (by omega)]
    have : pre.length + 1 - pre.length = 1 := by omega
    rw [this]; simp
  rw [evaluateStep, if_neg (by simp), hsel]
  simp only [hget]
  have hb := binaryCase_eq (o.apply A) pre post p ⟨j, o.type, M⟩ nx
  cases o <;> simp [Op.type, ADD_T, SUB_T, MUL_T, DIV_T, POW_T, L_PAREN_T] <;> exact hb

theorem evaluateStep_paren (A : Arith V) (pre post : List (Token V)) (c : Cfg V) (k : Nat)
    (j1 j2 : V) (M M2 : Nat) (h0 : M ≠ 0) (hd : c.depth ≤ 254)
    (hb : k + 9 * c.depth + 18 ≤ 2 ^ 32)
    (hpre : ∀ x ∈ pre, x.priority < M) (hin : ∀ x ∈ c.tokens k, x.priority ≤ M)
    (hM2 : M2 ≤ M) (hpost : ∀ x ∈ post, x.priority ≤ M) :
    evaluateStep A (pre ++ ⟨j1, L_PAREN_T, M⟩ :: (c.tokens k ++ ⟨j2, R_PAREN_T, M2⟩ :: post)) =
      Step.next (pre ++ (c.tokens (k + PAREN_P) ++ post)) := by
  have hsel := getHighestPriority_select pre (c.tokens k ++ ⟨j2, R_PAREN_T, M2⟩ :: post)
    (⟨j1, L_PAREN_T, M⟩ : Token V) h0 hpre
    (by
      intro x hx
      rcases List.mem_append.1 hx with h | h
      · exact hin x h
      · rcases List.mem_cons.1 h with h | h
        · subst h; exact hM2
        · exact hpost x h)
  have hget : (pre ++ ⟨j1, L_PAREN_T, M⟩ :: (c.tokens k ++ ⟨j2, R_PAREN_T, M2⟩ :: post)).get?
      pre.length = some ⟨j1, L_PAREN_T, M⟩ := by
    rw [List.get?_eq_getElem?, List.getElem?_append_right (Nat.le_refl _)]
    simp
  rw [evaluateStep, if_neg (by simp), hsel]
  simp only [hget]
  simp only [L_PAREN_T, ADD_T, SUB_T, MUL_T, DIV_T, POW_T, Nat.reduceEqDiff, if_false, if_true]
  exact parenCase_tokens pre post c k j1 j2 M M2 hd hb

theorem maxPriority_nil : maxPriority ([] : List (Token V)) = 0 := rfl

theorem maxPriority_cons (t : Token V) (ts : List (Token V)) :
    maxPriority (t :: ts) = max t.priority (maxPriority ts) := rfl

theorem le_maxPriority (ts : List (Token V)) (x : Token V) (hx : x ∈ ts) :
    x.priority ≤ maxPriority ts := by
  induction ts with
  | nil => simp at hx
  | cons t ts ih =>
    rw [maxPriority_cons]
    rcases List.mem_cons.1 hx with h | h
    · subst h; exact Nat.le_max_left _ _
    · exact Nat.le_trans (ih h) (Nat.le_max_right _ _)

theorem Redex.step (A : Arith V) (mid mid2 pre post : List (Token V)) (M : Nat)
    (hr : Redex A mid M mid2) (h0 : M ≠ 0) (hpre : ∀ x ∈ pre, x.priority < M)
    (hpost : ∀ x ∈ post, x.priority ≤ M) :
    evaluateStep A (pre ++ mid ++ post) = Step.next (pre ++ mid2 ++ post) := by
  cases hr with
  | bin a b j o =>
    have := evaluateStep_binary A pre post ⟨a, NUM_T, NUM_P⟩ ⟨b, NUM_T, NUM_P⟩ j o M h0
      (by simp only [NUM_P]; omega) hpre (by simp only [NUM_P]; omega) hpost
    simpa using this
  | par j1 j2 d k _ M2 hd hb hin hM2 hMk =>
    have := evaluateStep_paren A pre post d k j1 j2 M M2 h0 hd hb hpre hin hM2 hpost
    simpa using this

theorem Redex.length (A : Arith V) (mid mid2 : List (Token V)) (M : Nat)
    (hr : Redex A mid M mid2) : mid2.length < mid.length := by
  cases hr with
  | bin a b j o => simp
  | par j1 j2 d k _ M2 hd hb hin hM2 hMk =>
    have := d.tokens_length k (k + PAREN_P)
    simp; omega

theorem parseFrom_literal_op (A : Arith V) (fresh : Nat → Token V) (n : Nat) (s : String)
    (c : Char) (cs : List Char) (hs : IsLiteral s) (hc : isNumber c = false) :
    parseFrom A fresh n (s.toList ++ c :: cs) = (parseFrom A fresh (n + 1) (c :: cs)).map
      (List.cons ⟨literalValue A s, NUM_T, NUM_P⟩) :=
  parseFrom_literal A fresh n s (c :: cs) hs (by simpa using hc)

theorem lexemes_symbol (c : Char) (cs : List Char) (hc : isNumber c = false) :
    lexemes (c :: cs) = [c] :: lexemes cs := by
  rw [lexemes]
  split
  · rename_i d ds rest h
    simp [hc, h]
  · rfl

theorem lexemes_digits (d : Char) (ds rest : List Char) (hd : ∀ c ∈ d :: ds, isNumber c = true)
    (hr : ∀ c ∈ rest.head?, isNumber c = false) :
    lexemes (d :: ds ++ rest) = (d :: ds) :: lexemes rest := by
  induction ds generalizing d with
  | nil =>
    cases rest with
    | nil => simp [lexemes]
    | cons r rs =>
      have hr1 : isNumber r = false := hr r (by simp)
      rw [List.cons_append, List.nil_append, lexemes, lexemes_symbol r rs hr1]
      simp [hr1]
  | cons d2 ds ih =>
    have h2 := ih d2 (fun c hc => hd c (by simp at hc ⊢; tauto))
    rw [List.cons_append, lexemes, h2]
    simp [hd d (by simp), hd d2 (by simp)]

theorem parseFrom_lexemes (A : Arith V) (fresh : Nat → Token V) (len : Nat) :
    ∀ (s : List Char) (n : Nat), s.length ≤ len → (∀ c ∈ s, Allowed c) →
      parseFrom A fresh n s =
        some (lexTokens A fresh n (lexemes s) ++ [fresh (n + (lexemes s).length)]) := by
  induction len with
  | zero =>
    intro s n hl _
    have : s = [] := List.length_eq_zero.1 (by omega)
    subst this
    simp [parseFrom_nil, lexemes, lexTokens]
  | succ len ih =>
    intro s n hl hs
    cases s with
    | nil => simp [parseFrom_nil, lexemes, lexTokens]
    | cons c cs =>
      have hcs : ∀ x ∈ cs, Allowed x := fun x hx => hs x (by simp [hx])
      have hlen : cs.length ≤ len := by simpa using hl
      have step : ∀ (t : Token V), isNumber c = false → lexToken A (fresh n) [c] = t →
          parseFrom A fresh n (c :: cs) = (parseFrom A fresh (n + 1) cs).map (List.cons t) →
          parseFrom A fresh n (c :: cs) = some (lexTokens A fresh n (lexemes (c :: cs)) ++
            [fresh (n + (lexemes (c :: cs)).length)]) := by
        intro t hc ht hp
        rw [hp, ih cs (n + 1) hlen hcs, lexemes_symbol c cs hc]
        have e : n + 1 + (lexemes cs).length = n + ((lexemes cs).length + 1) := by omega
        simp only [Option.map_some', lexTokens, ht, List.cons_append, List.length_cons, e]
      rcases hs c (by simp) with h | h | h | h | h | h | h | h
      · -- a digit: the whole run is one Number token
        have hsplit := List.takeWhile_append_dropWhile isNumber cs
        have hds : ∀ x ∈ c :: cs.takeWhile isNumber, isNumber x = true := by
          intro x hx
          rcases List.mem_cons.1 hx with e | e
          · rw [e]; exact h
          · exact List.mem_takeWhile_imp e
        have hrest : ∀ x ∈ (cs.dropWhile isNumber).head?, isNumber x = false := by
          intro x hx
          have := List.head?_dropWhile_not isNumber cs
          rw [Option.mem_def] at hx
          rw [hx] at this
          simpa using this
        have hlit : IsLiteral (String.mk (c :: cs.takeWhile isNumber)) := ⟨by simp, hds⟩
        have hp := parseFrom_literal A fresh n (String.mk (c :: cs.takeWhile isNumber))
          (cs.dropWhile isNumber) hlit hrest
        have e1 : (String.mk (c :: cs.takeWhile isNumber)).toList ++ cs.dropWhile isNumber =
            c :: cs := by
          show (c :: cs.takeWhile isNumber) ++ cs.dropWhile isNumber = c :: cs
          rw [List.cons_append, hsplit]
        have e2 : lexemes (c :: cs) = (c :: cs.takeWhile isNumber) ::
            lexemes (cs.dropWhile isNumber) := by
          have := lexemes_digits c (cs.takeWhile isNumber) (cs.dropWhile isNumber) hds hrest
          rw [List.cons_append, hsplit] at this
          exact this
        have hl2 : (cs.dropWhile isNumber).length ≤ len := by
          have := congrArg List.length hsplit
          rw [List.length_append] at this
          omega
        have hcs2 : ∀ x ∈ cs.dropWhile isNumber, Allowed x :=
          fun x hx => hcs x ((List.dropWhile_sublist isNumber).subset hx)
        rw [e1] at hp
        rw [hp, ih _ (n + 1) hl2 hcs2, e2]
        have hd1 := isNumber_not_op h
        have etok : lexToken A (fresh n) (c :: cs.takeWhile isNumber) =
            ⟨literalValue A (String.mk (c :: cs.takeWhile isNumber)), NUM_T, NUM_P⟩ := by
          simp [lexToken, hd1, NUM_P]
        have e : n + 1 + (lexemes (cs.dropWhile isNumber)).length =
            n + ((lexemes (cs.dropWhile isNumber)).length + 1) := by omega
        simp only [Option.map_some', lexTokens, etok, List.cons_append, List.length_cons, e]
      · subst h; exact step _ (by decide) (by simp [lexToken, ADD_P, SUB_P, MUL_P, DIV_P, POW_P, PAREN_P]) (parseFrom_add A fresh n cs)
      · subst h; exact step _ (by decide) (by simp [lexToken, ADD_P, SUB_P, MUL_P, DIV_P, POW_P, PAREN_P]) (parseFrom_sub A fresh n cs)
      · subst h; exact step _ (by decide) (by simp [lexToken, ADD_P, SUB_P, MUL_P, DIV_P, POW_P, PAREN_P]) (parseFrom_mul A fresh n cs)
      · subst h; exact step _ (by decide) (by simp [lexToken, ADD_P, SUB_P, MUL_P, DIV_P, POW_P, PAREN_P]) (parseFrom_div A fresh n cs)
      · subst h; exact step _ (by decide) (by simp [lexToken, ADD_P, SUB_P, MUL_P, DIV_P, POW_P, PAREN_P]) (parseFrom_pow A fresh n cs)
      · subst h; exact step _ (by decide) (by simp [lexToken, ADD_P, SUB_P, MUL_P, DIV_P, POW_P, PAREN_P]) (parseFrom_lparen A fresh n cs)
      · subst h; exact step _ (by decide) (by simp [lexToken, ADD_P, SUB_P, MUL_P, DIV_P, POW_P, PAREN_P]) (parseFrom_rparen A fresh n cs)

theorem Expr.level_le (e : Expr) : e.level ≤ 6 := by
  cases e with
  | bin o l r => have := o.prec_bounds; simp only [Expr.level]; omega
  | lit s => simp [Expr.level]
  | paren e => simp [Expr.level]

theorem get?_not_isEmpty (tokens : List (Token V)) (i : Nat) (tok : Token V)
    (hget : tokens.get? i = some tok) : ¬ tokens.isEmpty = true := by
  cases tokens with
  | nil => simp at hget
  | cons t ts => simp

theorem evaluateStep_default (A : Arith V) (tokens : List (Token V)) (i : Nat) (tok : Token V)
    (hsel : getHighestPriority tokens = some i) (hget : tokens.get? i = some tok)
    (h1 : tok.type ≠ ADD_T) (h2 : tok.type ≠ SUB_T) (h3 : tok.type ≠ MUL_T)
    (h4 : tok.type ≠ DIV_T) (h5 : tok.type ≠ POW_T) (h6 : tok.type ≠ L_PAREN_T) :
    evaluateStep A tokens = Step.exitFailure tok := by
  rw [evaluateStep, if_neg (get?_not_isEmpty tokens i tok hget), hsel]
  simp only [hget]
  rw [if_neg h1, if_neg h2, if_neg h3, if_neg h4, if_neg h5, if_neg h6]

theorem boostScan_none (ts : List (Token V)) (count : Nat)
    (h : ∀ t ∈ ts, t.type ≠ R_PAREN_T) : boostScan ts count = none := by
  induction ts generalizing count with
  | nil => rfl
  | cons t ts ih =>
    have ht : t.type ≠ R_PAREN_T := h t (by simp)
    have hts : ∀ x ∈ ts, x.type ≠ R_PAREN_T := fun x hx => h x (by simp [hx])
    rw [boostScan]
    simp only [ht, if_false, ih _ hts, Option.map_none', ite_self]

theorem evaluateStep_op (A : Arith V) (tokens : List (Token V)) (i : Nat) (tok : Token V)
    (o : Op) (hsel : getHighestPriority tokens = some i) (hget : tokens.get? i = some tok)
    (hty : tok.type = o.type) :
    evaluateStep A tokens = binaryCase (o.apply A) tokens i := by
  rw [evaluateStep, if_neg (get?_not_isEmpty tokens i tok hget), hsel]
  simp only [hget, hty]
  cases o <;> simp [Op.type, Op.apply, ADD_T, SUB_T, MUL_T, DIV_T, POW_T]

theorem evaluateStep_lparen (A : Arith V) (tokens : List (Token V)) (i : Nat) (tok : Token V)
    (hsel : getHighestPriority tokens = some i) (hget : tokens.get? i = some tok)
    (hty : tok.type = L_PAREN_T) :
    evaluateStep A tokens = parenCase tokens i := by
  rw [evaluateStep, if_neg (get?_not_isEmpty tokens i tok hget), hsel]
  simp only [hget, hty]
  simp [L_PAREN_T, ADD_T, SUB_T, MUL_T, DIV_T, POW_T]

theorem exists_mem_maxPriority (ts : List (Token V)) (hne : ts ≠ []) :
    ∃ t ∈ ts, t.priority = maxPriority ts := by
  induction ts with
  | nil => exact absurd rfl hne
  | cons x xs ih =>
    rw [maxPriority_cons]
    by_cases hx : xs = []
    · subst hx
      exact ⟨x, by simp, by simp [maxPriority_nil]⟩
    · obtain ⟨t, ht, he⟩ := ih hx
      by_cases hle : maxPriority xs ≤ x.priority
      · exact ⟨x, by simp, by rw [Nat.max_eq_left hle]⟩
      · exact ⟨t, by simp [ht], by rw [he, Nat.max_eq_right (by omega)]⟩

theorem getHighestPriority_leftmost (tokens : List (Token V))
    (h : maxPriority tokens ≠ 0) :
    ∃ pre t post, tokens = pre ++ t :: post ∧ t.priority = maxPriority tokens ∧
      (∀ x ∈ pre, x.priority < t.priority) ∧ (∀ x ∈ post, x.priority ≤ t.priority) ∧
      getHighestPriority tokens = some pre.length := by
  have hne : tokens ≠ [] := by
    rintro rfl; exact h rfl
  obtain ⟨m, hm, hmax⟩ := exists_mem_maxPriority tokens hne
  have hsplit := List.takeWhile_append_dropWhile
    (fun x : Token V => decide (x.priority < maxPriority tokens)) tokens
  cases hd : tokens.dropWhile (fun x : Token V => decide (x.priority < maxPriority tokens)) with
  | nil =>
    rw [hd, List.append_nil] at hsplit
    have : m ∈ tokens.takeWhile (fun x : Token V => decide (x.priority < maxPriority tokens)) := by
      rw [hsplit]; exact hm
    have := List.mem_takeWhile_imp this
    simp at this
    omega
  | cons t post =>
    rw [hd] at hsplit
    have ht : ¬ t.priority < maxPriority tokens := by
      have := List.head?_dropWhile_not
        (fun x : Token V => decide (x.priority < maxPriority tokens)) tokens
      rw [hd] at this
      simpa using this
    have htm : t ∈ tokens := by rw [← hsplit]; simp
    have hle := le_maxPriority tokens t htm
    have hte : t.priority = maxPriority tokens := by omega
    have hpre : ∀ x ∈ tokens.takeWhile
        (fun x : Token V => decide (x.priority < maxPriority tokens)), x.priority < t.priority := by
      intro x hx
      have := List.mem_takeWhile_imp hx
      simp at this
      omega
    have hpost : ∀ x ∈ post, x.priority ≤ t.priority := by
      intro x hx
      have : x ∈ tokens := by rw [← hsplit]; simp [hx]
      have := le_maxPriority tokens x this
      omega
    refine ⟨_, t, post, hsplit.symm, hte, hpre, hpost, ?_⟩
    have := getHighestPriority_select _ post t (by omega) hpre hpost
    rw [hsplit] at this
    exact this

/-- Claim C7: a run of letters that is exactly `sqrt`, at the position the main loop
of `parse` has reached, gives one token of type Sqrt and priority 5 (the letter loop
stores `qrt`, which `compare` finds different from `sqrt`). -/
theorem parse_sqrt (A : Arith V) (fresh : Nat → Token V) (n : Nat) (rest : List Char)
    (hr : ∀ c ∈ rest.head?, isLetter c = false) :
    parseFrom A fresh n ("sqrt".toList ++ rest) =
      (parseFrom A fresh (n + 1) rest).map (List.cons ⟨(fresh n).value, SQRT_T, 5⟩) := by
  have e : "sqrt".toList ++ rest = 's' :: 'q' :: 'r' :: 't' :: rest := rfl
  have hl : parseLetters ['s', Char.ofNat 0, Char.ofNat 0, Char.ofNat 0, Char.ofNat 0,
      Char.ofNat 0, Char.ofNat 0, Char.ofNat 0, Char.ofNat 0] 0 ('q' :: 'r' :: 't' :: rest) =
      some (['q', 'r', 't', Char.ofNat 0, Char.ofNat 0, Char.ofNat 0, Char.ofNat 0,
        Char.ofNat 0, Char.ofNat 0], rest) := by
    have hq : isLetter 'q' = true := by decide
    have hr2 : isLetter 'r' = true := by decide
    have ht : isLetter 't' = true := by decide
    simp only [parseLetters, hq, hr2, ht, if_true]
    cases rest with
    | nil => simp [parseLetters]
    | cons r rs =>
      have hr1 : isLetter r = false := hr r (by simp)
      simp [parseLetters, hr1]
  have hc : compare ['s', 'q', 'r', 't'] ['q', 'r', 't', Char.ofNat 0, Char.ofNat 0, Char.ofNat 0,
      Char.ofNat 0, Char.ofNat 0, Char.ofNat 0] = true := by decide
  have hs : isLetter 's' = true := by decide
  have hn : isNumber 's' = false := by decide
  rw [e, parseFrom]
  simp only [hs, hn, SQRT_P, Char.reduceEq, if_false, if_true, Bool.false_eq_true,
    List.replicate, List.set]
  split
  · rename_i h
    rw [hl] at h
    cases h
  · rename_i buf rest1 h
    rw [hl] at h
    cases h
    have hc2 : compare "sqrt".toList ['q', 'r', 't', Char.ofNat 0, Char.ofNat 0, Char.ofNat 0,
        Char.ofNat 0, Char.ofNat 0, Char.ofNat 0] = true := hc
    rw [hc2, if_pos rfl]

theorem parse_sqrt_witness :
    parse intArith zeroed "sqrt" = some [⟨0, SQRT_T, 5⟩, ⟨0, 0, 0⟩] := by
  have h := parse_sqrt intArith zeroed 0 [] (by simp)
  rw [List.append_nil, parseFrom_nil] at h
  exact h

/-- Claim C8, at the failing inputs: for the letter runs `foo` (alone or before a
parenthesis) `parse` does not fail but emits a Sqrt token of priority 5, and for `xsqrt`
it emits a token left as allocated; in no case is an error raised. -/
theorem parse_unknown_name (A : Arith V) (fresh : Nat → Token V) :
    parse A fresh "foo" = some [⟨(fresh 0).value, SQRT_T, 5⟩, fresh 1] ∧
    parse A fresh "foo(1)" = some [⟨(fresh 0).value, SQRT_T, 5⟩,
      ⟨(fresh 1).value, L_PAREN_T, 9⟩, ⟨A.ofInt 1, NUM_T, 0⟩, ⟨(fresh 3).value, R_PAREN_T, 9⟩,
      fresh 4] ∧
    parse A fresh "xsqrt" = some [fresh 0, fresh 1] := by
  refine ⟨?_, ?_, ?_⟩
  · simp [parse, parseFrom, parseLetters, isLetter, isNumber, compare, cString, SQRT_P]
  · simp [parse, parseFrom, parseLetters, parseNumber, isLetter, isNumber, compare, cString,
      SQRT_P, PAREN_P, NUM_P]
  · simp [parse, parseFrom, parseLetters, isLetter, isNumber, compare, cString]

/-- Claim C9, counterexample: on the input `1 2`, which holds a space, `parse` returns
a token sequence. -/
theorem parse_space :
    parse intArith zeroed "1 2" = some [⟨1, NUM_T, 0⟩, zeroed 1, ⟨2, NUM_T, 0⟩, zeroed 3] := by
  simp [parse, parseFrom, parseNumber, isLetter, isNumber, intArith, NUM_P, zeroed]

/-- Claim C9, amended: a character that is neither a digit, nor a lower-case letter,
nor one of `+ - * / ^ ( )` does not make `parse` fail: the node of that character is
left as allocated and the scan goes on with the next character. -/
theorem parse_other_character (A : Arith V) (fresh : Nat → Token V) (n : Nat) (c : Char)
    (cs : List Char) (hc : ¬ Allowed c) (hl : isLetter c = false) :
    parseFrom A fresh n (c :: cs) = (parseFrom A fresh (n + 1) cs).map (List.cons (fresh n)) := by
  simp only [Allowed, not_or] at hc
  obtain ⟨h0, h1, h2, h3, h4, h5, h6, h7⟩ := hc
  rw [parseFrom]
  simp [h0, h1, h2, h3, h4, h5, h6, h7, hl]

theorem parse_other_character_witness :
    parseFrom intArith zeroed 0 (' ' :: "2".toList) =
      (parseFrom intArith zeroed 1 "2".toList).map (List.cons (zeroed 0)) :=
  parse_other_character intArith zeroed 0 ' ' "2".toList (by decide) (by decide)

/-- Claim C10, counterexample: `parse` applied to the empty string returns a token
sequence, the single node it allocates first. -/
theorem parse_empty : parse intArith zeroed "" = some [zeroed 0] :=
  parseFrom_nil intArith zeroed 0

/-- Claim C10, amended: the empty string is refused by `main`, before `parse` is
called, with the message `Cannot parse an empty string`; `parse` itself does not fail
on it and returns the one node it allocates first, left as allocated. -/
theorem main_empty (A : Arith V) (fresh : Nat → Token V) :
    main A fresh "" = Except.error "Cannot parse an empty string" ∧
    parse A fresh "" = some [fresh 0] :=
  ⟨rfl, parseFrom_nil A fresh 0⟩

/-- Claim C11, what the code does: when the selected left parenthesis has no right
parenthesis after it, the boost scan finds no node to stop at and runs off the end of
the list, where `tok->type` dereferences `NULL`; no error is reported. -/
theorem unmatched_left_paren (A : Arith V) (tokens : List (Token V)) (i : Nat)
    (tok : Token V) (hsel : getHighestPriority tokens = some i)
    (hget : tokens.get? i = some tok) (hty : tok.type = L_PAREN_T)
    (hno : ∀ t ∈ tokens.drop (i + 1), t.type ≠ R_PAREN_T) :
    boostScan (tokens.drop (i + 1)) 1 = none ∧
    evaluateStep A tokens = Step.undefined ∧ evaluate A tokens = Outcome.undefined := by
  have hb := boostScan_none (tokens.drop (i + 1)) 1 hno
  have hs : evaluateStep A tokens = Step.undefined := by
    rw [evaluateStep_lparen A tokens i tok hsel hget hty, parenCase, hb]
  exact ⟨hb, hs, evaluateLoop_undefined A tokens hs⟩

theorem unmatched_left_paren_witness :
    parse intArith zeroed "(1+2" = some [⟨0, L_PAREN_T, 9⟩, ⟨1, NUM_T, 0⟩, ⟨0, ADD_T, 3⟩,
      ⟨2, NUM_T, 0⟩, ⟨0, 0, 0⟩] ∧
    evaluate intArith [⟨0, L_PAREN_T, 9⟩, ⟨1, NUM_T, 0⟩, ⟨0, ADD_T, 3⟩, ⟨2, NUM_T, 0⟩,
      ⟨0, 0, 0⟩] = Outcome.undefined :=
  ⟨parseFrom_lexemes intArith zeroed 4 "(1+2".toList 0 (by decide) (by decide),
   (unmatched_left_paren intArith [⟨0, L_PAREN_T, 9⟩, ⟨1, NUM_T, 0⟩, ⟨0, ADD_T, 3⟩,
      ⟨2, NUM_T, 0⟩, ⟨0, 0, 0⟩] 0 ⟨0, L_PAREN_T, 9⟩ (by decide) (by decide) rfl
      (by decide)).2.2⟩

/-- Claim C12: when the token `getHighestPriority` selects is a right parenthesis,
`evaluate` takes the `default` case: it prints the token and exits with failure status,
so no result is returned. -/
theorem right_paren_selected (A : Arith V) (tokens : List (Token V)) (i : Nat)
    (tok : Token V) (hsel : getHighestPriority tokens = some i)
    (hget : tokens.get? i = some tok) (hty : tok.type = R_PAREN_T) :
    evaluateStep A tokens = Step.exitFailure tok ∧
    evaluate A tokens = Outcome.exitFailure tok := by
  have hs : evaluateStep A tokens = Step.exitFailure tok := by
    apply evaluateStep_default A tokens i tok hsel hget <;> rw [hty] <;> decide
  exact ⟨hs, evaluateLoop_exit A tokens tok hs⟩

theorem right_paren_selected_witness :
    parse intArith zeroed "1+2)" = some [⟨1, NUM_T, 0⟩, ⟨0, ADD_T, 3⟩, ⟨2, NUM_T, 0⟩,
      ⟨0, R_PAREN_T, 9⟩, ⟨0, 0, 0⟩] ∧
    evaluate intArith [⟨1, NUM_T, 0⟩, ⟨0, ADD_T, 3⟩, ⟨2, NUM_T, 0⟩, ⟨0, R_PAREN_T, 9⟩,
      ⟨0, 0, 0⟩] = Outcome.exitFailure ⟨0, R_PAREN_T, 9⟩ :=
  ⟨parseFrom_lexemes intArith zeroed 4 "1+2)".toList 0 (by decide) (by decide),
   (right_paren_selected intArith [⟨1, NUM_T, 0⟩, ⟨0, ADD_T, 3⟩, ⟨2, NUM_T, 0⟩,
      ⟨0, R_PAREN_T, 9⟩, ⟨0, 0, 0⟩] 3 ⟨0, R_PAREN_T, 9⟩ (by decide) (by decide) rfl).2⟩

/-- Claim C13, what the code does: when the selected binary operator is the first node
of the list, or the last one, `evaluate` reports no error: it dereferences the `NULL`
`prev` or `next` pointer of the operator. -/
theorem operator_at_boundary (A : Arith V) (tokens : List (Token V)) (i : Nat)
    (tok : Token V) (o : Op) (hsel : getHighestPriority tokens = some i)
    (hget : tokens.get? i = some tok) (hty : tok.type = o.type)
    (hb : i = 0 ∨ i + 1 = tokens.length) :
    evaluateStep A tokens = Step.undefined ∧ evaluate A tokens = Outcome.undefined := by
  have hs : evaluateStep A tokens = Step.undefined := by
    rw [evaluateStep_op A tokens i tok o hsel hget hty, binaryCase]
    rcases hb with h | h
    · rw [if_pos h]
    · have hn : tokens.get? (i + 1) = none := by
        rw [List.get?_eq_none]; omega
      rw [hn]
      split
      · rfl
      · split <;> simp_all
  exact ⟨hs, evaluateLoop_undefined A tokens hs⟩

theorem operator_at_boundary_witness :
    parse intArith zeroed "+1" = some [⟨0, ADD_T, 3⟩, ⟨1, NUM_T, 0⟩, ⟨0, 0, 0⟩] ∧
    evaluate intArith [⟨0, ADD_T, 3⟩, ⟨1, NUM_T, 0⟩, ⟨0, 0, 0⟩] = Outcome.undefined ∧
    parse intArith zeroed "1+" = some [⟨1, NUM_T, 0⟩, ⟨0, ADD_T, 3⟩, ⟨0, 0, 0⟩] ∧
    evaluateStep intArith [⟨1, NUM_T, 0⟩, ⟨0, ADD_T, 3⟩, ⟨0, 0, 0⟩] =
      Step.next [⟨1, NUM_T, 0⟩] :=
  ⟨parseFrom_lexemes intArith zeroed 2 "+1".toList 0 (by decide) (by decide),
   (operator_at_boundary intArith [⟨0, ADD_T, 3⟩, ⟨1, NUM_T, 0⟩, ⟨0, 0, 0⟩] 0 ⟨0, ADD_T, 3⟩
      Op.add (by decide) (by decide) rfl (Or.inl rfl)).2,
   parseFrom_lexemes intArith zeroed 2 "1+".toList 0 (by decide) (by decide),
   by decide⟩

/-- Claim C14: when the token `getHighestPriority` selects is a Sqrt token, `evaluate`
takes the `default` case: it prints the token (type and value) and exits with failure
status; the loop is left and no value is returned. -/
theorem sqrt_selected (A : Arith V) (tokens : List (Token V)) (i : Nat)
    (tok : Token V) (hsel : getHighestPriority tokens = some i)
    (hget : tokens.get? i = some tok) (hty : tok.type = SQRT_T) :
    evaluateStep A tokens = Step.exitFailure tok ∧
    evaluate A tokens = Outcome.exitFailure tok := by
  have hs : evaluateStep A tokens = Step.exitFailure tok := by
    apply evaluateStep_default A tokens i tok hsel hget <;> rw [hty] <;> decide
  exact ⟨hs, evaluateLoop_exit A tokens tok hs⟩

theorem sqrt_selected_witness :
    parse intArith zeroed "sqrt4" = some [⟨0, SQRT_T, 5⟩, ⟨4, NUM_T, 0⟩, ⟨0, 0, 0⟩] ∧
    evaluate intArith [⟨0, SQRT_T, 5⟩, ⟨4, NUM_T, 0⟩, ⟨0, 0, 0⟩] =
      Outcome.exitFailure ⟨0, SQRT_T, 5⟩ :=
  ⟨by simp [parse, parseFrom, parseLetters, parseNumber, isLetter, isNumber, compare, cString,
      intArith, SQRT_P, NUM_P, zeroed],
   (sqrt_selected intArith [⟨0, SQRT_T, 5⟩, ⟨4, NUM_T, 0⟩, ⟨0, 0, 0⟩] 0 ⟨0, SQRT_T, 5⟩
    (by decide) (by decide) rfl).2⟩

/-- Claim C16: on a non-empty token list `getHighestPriority` returns no token exactly
when every token has priority 0; otherwise it returns the leftmost token of maximal
priority: the tokens before it have strictly smaller priority, the tokens after it
smaller or equal priority. -/
theorem getHighestPriority_spec (tokens : List (Token V)) (hne : tokens ≠ []) :
    (getHighestPriority tokens = none ↔ ∀ t ∈ tokens, t.priority = 0) ∧
    ((∃ t ∈ tokens, t.priority ≠ 0) →
      ∃ i tok, getHighestPriority tokens = some i ∧ tokens.get? i = some tok ∧
        tok.priority = maxPriority tokens ∧
        (∀ j u, j < i → tokens.get? j = some u → u.priority < tok.priority) ∧
        (∀ j u, i < j → tokens.get? j = some u → u.priority ≤ tok.priority)) := by
  have _ := hne
  have key : (∃ t ∈ tokens, t.priority ≠ 0) →
      ∃ i tok, getHighestPriority tokens = some i ∧ tokens.get? i = some tok ∧
        tok.priority = maxPriority tokens ∧
        (∀ j u, j < i → tokens.get? j = some u → u.priority < tok.priority) ∧
        (∀ j u, i < j → tokens.get? j = some u → u.priority ≤ tok.priority) := by
    rintro ⟨t, ht, hp⟩
    have hM : maxPriority tokens ≠ 0 := by
      have := le_maxPriority tokens t ht
      omega
    obtain ⟨pre, m, post, hs, hm, hpre, hpost, hsel⟩ := getHighestPriority_leftmost tokens hM
    refine ⟨pre.length, m, hsel, ?_, hm, ?_, ?_⟩
    · rw [hs, List.get?_eq_getElem?, List.getElem?_append_right (Nat.le_refl _)]
      simp
    · intro j u hj hu
      rw [hs, List.get?_eq_getElem?, List.getElem?_append_left hj] at hu
      exact hpre u (List.getElem?_mem hu)
    · intro j u hj hu
      rw [hs, List.get?_eq_getElem?, List.getElem?_append_right (by omega)] at hu
      have : j - pre.length = (j - pre.length - 1) + 1 := by omega
      rw [this, List.getElem?_cons_succ] at hu
      exact hpost u (List.getElem?_mem hu)
  refine ⟨⟨?_, getHighestPriority_none tokens⟩, key⟩
  intro hnone t ht
  by_contra hp
  obtain ⟨i, tok, hsel, _⟩ := key ⟨t, ht, hp⟩
  rw [hnone] at hsel
  cases hsel

theorem getHighestPriority_spec_witness :
    ∃ i tok, getHighestPriority ([⟨1, NUM_T, 0⟩, ⟨0, ADD_T, 3⟩, ⟨2, NUM_T, 0⟩, ⟨0, MUL_T, 4⟩,
        ⟨3, NUM_T, 0⟩, ⟨0, DIV_T, 4⟩, ⟨4, NUM_T, 0⟩] : List (Token Int)) = some i ∧
      ([⟨1, NUM_T, 0⟩, ⟨0, ADD_T, 3⟩, ⟨2, NUM_T, 0⟩, ⟨0, MUL_T, 4⟩, ⟨3, NUM_T, 0⟩,
        ⟨0, DIV_T, 4⟩, ⟨4, NUM_T, 0⟩] : List (Token Int)).get? i = some tok ∧
      tok.priority = maxPriority ([⟨1, NUM_T, 0⟩, ⟨0, ADD_T, 3⟩, ⟨2, NUM_T, 0⟩,
        ⟨0, MUL_T, 4⟩, ⟨3, NUM_T, 0⟩, ⟨0, DIV_T, 4⟩, ⟨4, NUM_T, 0⟩] : List (Token Int)) ∧
      (∀ j u, j < i → ([⟨1, NUM_T, 0⟩, ⟨0, ADD_T, 3⟩, ⟨2, NUM_T, 0⟩, ⟨0, MUL_T, 4⟩,
        ⟨3, NUM_T, 0⟩, ⟨0, DIV_T, 4⟩, ⟨4, NUM_T, 0⟩] : List (Token Int)).get? j = some u →
        u.priority < tok.priority) ∧
      (∀ j u, i < j → ([⟨1, NUM_T, 0⟩, ⟨0, ADD_T, 3⟩, ⟨2, NUM_T, 0⟩, ⟨0, MUL_T, 4⟩,
        ⟨3, NUM_T, 0⟩, ⟨0, DIV_T, 4⟩, ⟨4, NUM_T, 0⟩] : List (Token Int)).get? j = some u →
        u.priority ≤ tok.priority) :=
  (getHighestPriority_spec ([⟨1, NUM_T, 0⟩, ⟨0, ADD_T, 3⟩, ⟨2, NUM_T, 0⟩, ⟨0, MUL_T, 4⟩,
    ⟨3, NUM_T, 0⟩, ⟨0, DIV_T, 4⟩, ⟨4, NUM_T, 0⟩] : List (Token Int)) (by simp)).2
    ⟨⟨0, ADD_T, 3⟩, by simp, by decide⟩

/-- Claim C17: when the selected token is a binary operator with a previous and a next
token, one turn of the loop of `evaluate` stores `prev op next` in the value of the
previous token, which keeps its type and priority, removes the operator and the next
token, and leaves every other token as it was and in the same order; `post` may be
empty, the next token being then the last one. -/
theorem binary_step (A : Arith V) (pre post : List (Token V)) (p t nx : Token V) (o : Op)
    (hsel : getHighestPriority (pre ++ p :: t :: nx :: post) = some (pre.length + 1))
    (hty : t.type = o.type) :
    evaluateStep A (pre ++ p :: t :: nx :: post) =
      Step.next (pre ++ ⟨o.apply A p.value nx.value, p.type, p.priority⟩ :: post) := by
  have hget : (pre ++ p :: t :: nx :: post).get? (pre.length + 1) = some t := by
    rw [List.get?_eq_getElem?, List.getElem?_append_right (by omega)]
    have : pre.length + 1 - pre.length = 1 := by omega
    rw [this]; simp
  rw [evaluateStep_op A _ _ t o hsel hget hty, binaryCase_eq]

theorem binary_step_witness :
    evaluateStep intArith [⟨7, NUM_T, 0⟩, ⟨0, SUB_T, 3⟩, ⟨2, NUM_T, 0⟩] =
      Step.next [⟨5, NUM_T, 0⟩] ∧
    evaluateStep intArith [⟨1, NUM_T, 0⟩, ⟨0, ADD_T, 3⟩, ⟨2, NUM_T, 0⟩, ⟨0, MUL_T, 4⟩,
      ⟨3, NUM_T, 0⟩, ⟨0, SUB_T, 3⟩, ⟨4, NUM_T, 0⟩, ⟨0, 0, 0⟩] =
      Step.next [⟨1, NUM_T, 0⟩, ⟨0, ADD_T, 3⟩, ⟨6, NUM_T, 0⟩, ⟨0, SUB_T, 3⟩, ⟨4, NUM_T, 0⟩,
        ⟨0, 0, 0⟩] :=
  ⟨binary_step intArith [] [] ⟨7, NUM_T, 0⟩ ⟨0, SUB_T, 3⟩ ⟨2, NUM_T, 0⟩ Op.sub (by decide) rfl,
   binary_step intArith [⟨1, NUM_T, 0⟩, ⟨0, ADD_T, 3⟩]
     [⟨0, SUB_T, 3⟩, ⟨4, NUM_T, 0⟩, ⟨0, 0, 0⟩] ⟨2, NUM_T, 0⟩ ⟨0, MUL_T, 4⟩ ⟨3, NUM_T, 0⟩
     Op.mul (by decide) rfl⟩

set_option maxRecDepth 100000 in
/-- Claim C19, at the failing input: `1` inside 257 pairs of parentheses.  The outermost
left parenthesis is selected; after the 256 further left parentheses the `unsigned char`
counter is back at 1, so the scan stops at offset 257, the first right parenthesis
(the one matching the innermost left parenthesis, not the last one at offset 513), none
of the right parentheses in between is boosted, and the two nodes removed are the
outermost left and the innermost right parenthesis. -/
theorem nested_257_scan :
    parse intArith zeroed (nestedText 257) = some (nestedTokens 257) ∧
    getHighestPriority (nestedTokens 257) = some 0 ∧
    boostScan ((nestedTokens 257).drop 1) 1 =
      some (List.replicate 256 ⟨0, L_PAREN_T, 18⟩ ++ ⟨1, NUM_T, 0⟩ ::
        (List.replicate 257 ⟨0, R_PAREN_T, 9⟩ ++ [⟨0, 0, 0⟩]), 257) ∧
    evaluateStep intArith (nestedTokens 257) =
      Step.next (List.replicate 256 ⟨0, L_PAREN_T, 18⟩ ++ ⟨1, NUM_T, 0⟩ ::
        (List.replicate 256 ⟨0, R_PAREN_T, 9⟩ ++ [⟨0, 0, 0⟩])) := by
  refine ⟨?_, by decide, by decide, by decide⟩
  have h := parseFrom_lexemes intArith zeroed 515 (nestedText 257).toList 0 (by decide)
    (by decide)
  exact h.trans (by decide)

end Proofs

end Calculator
